import Mathlib

/-!
Verification of the `Arduboy2EEPROM` library (`src/Arduboy2EEPROM.h`).

The storage medium is modelled as a map from addresses to cell contents
together with a counter of physical write operations, so that the
wear-reduction behaviour of `eeprom_update_byte` (skip the physical write
when the stored byte already equals the new byte) is observable.

Objects are modelled by their object representation: the list of bytes
obtained by reading the object's memory in ascending address order, which
is exactly what the C++ code does via `reinterpret_cast<const unsigned
char *>`.  The four-byte `hash_type` (`uint32_t`) is serialised in the
native (little-endian, on AVR) order; `bytesOfWord`/`wordOfBytes` model
that object representation.  Machine integers are embedded as `Nat` with
explicit reductions: `% 256` at each `unsigned char` conversion and
`% 4294967296` for `uint32_t` arithmetic.
-/

namespace Arduboy2EEPROM

/-- State of the EEPROM device: cell contents plus a count of the physical
write operations the device has performed. -/
structure EEPROM where
  mem : Nat → Nat
  physWrites : Nat

/-- Model of `readByte` (source lines 141-144): returns the byte stored at
the address, i.e. `eeprom_read_byte`.  The `% 256` reflects that a cell
holds an `unsigned char`. -/
def readByte (s : EEPROM) (address : Nat) : Nat :=
  s.mem address % 256

/-- Model of `writeByte` (source lines 120-123), i.e. `eeprom_update_byte`:
the device compares the stored byte with the new byte and performs a
physical write only when they differ. -/
def writeByte (s : EEPROM) (address byte : Nat) : EEPROM :=
  if readByte s address = byte % 256 then
    s
  else
    { mem := fun x => if x = address then byte % 256 else s.mem x
      physWrites := s.physWrites + 1 }

/-- Model of the templated `write` (source lines 202-209): the object's
representation bytes are written one at a time at ascending addresses,
each through the conditional `writeByte`. -/
def write (s : EEPROM) (address : Nat) (object : List Nat) : EEPROM :=
  match object with
  | [] => s
  | b :: rest => write (writeByte s address b) (address + 1) rest

/-- Model of the templated `read` (source lines 264-271): reads `size`
bytes at ascending addresses starting at `address`. -/
def read (s : EEPROM) (address : Nat) : Nat → List Nat
  | 0 => []
  | n + 1 => readByte s address :: read s (address + 1) n

/-- One iteration of the loop in `hash` (source line 305):
`value = (((value << 5) ^ (value >> 27)) ^ data[index])` in `uint32_t`
arithmetic. -/
def hashStep (value byte : Nat) : Nat :=
  ((((value <<< 5) % 4294967296) ^^^ (value >>> 27)) ^^^ byte) % 4294967296

/-- Model of `hash` (source lines 300-308): the accumulator starts at
`size` (the length of the data, reduced into `uint32_t`) and is updated
once per byte in ascending index order. -/
def hash (data : List Nat) : Nat :=
  List.foldl hashStep (data.length % 4294967296) data

/-- Object representation of a `w`-byte unsigned integer in native
little-endian (AVR) byte order; models writing an integer of that width
through the byte-wise `write`. -/
def bytesOfWord (w h : Nat) : List Nat :=
  match w with
  | 0 => []
  | n + 1 => h % 256 :: bytesOfWord n (h / 256)

/-- Reassembles a little-endian byte sequence into the unsigned integer it
represents; models reading an integer object through the byte-wise
`read`. -/
def wordOfBytes (bs : List Nat) : Nat :=
  match bs with
  | [] => 0
  | b :: rest => b % 256 + 256 * wordOfBytes rest

/-- Model of `writeWithHash` (source lines 392-397): write the four-byte
representation of `hash(object)` at `address`, then the object at
`address + sizeof(hash_type)`. -/
def writeWithHash (s : EEPROM) (address : Nat) (object : List Nat) : EEPROM :=
  write (write s address (bytesOfWord 4 (hash object))) (address + 4) object

/-- Model of `readWithHash` (source lines 439-448): read the stored hash,
read the object, and return whether the stored hash equals the hash
recomputed from the freshly read object, together with the read object
(the out-parameter). -/
def readWithHash (s : EEPROM) (address size : Nat) : Bool × List Nat :=
  let storedHash := wordOfBytes (read s address 4)
  let object := read s (address + 4) size
  (decide (storedHash = hash object), object)

/-- Model of the custom-hash `writeWithHash` overload (source lines
505-514): `w` is `sizeof` of the hash provider's return type and `H` the
hash provider itself, acting on object representations. -/
def writeWithHashCustom (s : EEPROM) (address : Nat) (object : List Nat)
    (w : Nat) (H : List Nat → Nat) : EEPROM :=
  write (write s address (bytesOfWord w (H object))) (address + w) object

/-- Model of the custom-hash `readWithHash` overload (source lines
569-582): reads a stored hash field of width `w`, reads the object,
recomputes the custom hash and compares. -/
def readWithHashCustom (s : EEPROM) (address size : Nat)
    (w : Nat) (H : List Nat → Nat) : Bool × List Nat :=
  let storedHash := wordOfBytes (read s address w)
  let object := read s (address + w) size
  (decide (storedHash = H object), object)

/-- Left rotation of a 32-bit value by 5 bits, written as the claim writes
it: `(v << 5) | (v >> 27)` in 32-bit unsigned arithmetic. -/
def rotl5 (v : Nat) : Nat :=
  ((v <<< 5) % 4294967296) ||| (v >>> 27)

/-- Right rotation of a 32-bit value by 5 bits (32-bit rotation width):
`(v >> 5) | (v << 27)` in 32-bit unsigned arithmetic. -/
def rotr5 (v : Nat) : Nat :=
  (v >>> 5) ||| ((v <<< 27) % 4294967296)

/-- Modelled from the spec: the per-byte update exactly as the claim
states it, `(accumulator rotated left 5 bits) XOR (accumulator rotated
right 5 bits, with 32-bit rotation width) XOR byte`. -/
def hashSpecStep (value byte : Nat) : Nat :=
  (((rotl5 value) ^^^ (rotr5 value)) ^^^ byte) % 4294967296

/-- Modelled from the spec: the hash function exactly as the claim
describes it, using `hashSpecStep` for each byte. -/
def hashSpec (data : List Nat) : Nat :=
  List.foldl hashSpecStep (data.length % 4294967296) data

/-- A concrete all-zero device state, used to instantiate universally
quantified theorems at concrete inputs. -/
def s0 : EEPROM :=
  { mem := fun _ => 0, physWrites := 0 }

/-! Basic facts about the byte layer. -/

theorem readByte_writeByte (s : EEPROM) (p b x : Nat) :
    readByte (writeByte s p b) x = if x = p then b % 256 else readByte s x := by
  unfold writeByte readByte
  by_cases h : s.mem p % 256 = b % 256
  · rw [if_pos h]
    by_cases hx : x = p
    · rw [if_pos hx, hx, h]
    · rw [if_neg hx]
  · rw [if_neg h]
    show (if x = p then b % 256 else s.mem x) % 256 = if x = p then b % 256 else s.mem x % 256
    by_cases hx : x = p
    · rw [if_pos hx, if_pos hx]
      omega
    · rw [if_neg hx, if_neg hx]

theorem writeByte_mem_ne (s : EEPROM) (p b x : Nat) (h : x ≠ p) :
    (writeByte s p b).mem x = s.mem x := by
  unfold writeByte
  by_cases hc : readByte s p = b % 256
  · simp [hc]
  · simp [hc, h]

theorem write_mem_outside (v : List Nat) (s : EEPROM) (a x : Nat)
    (h : x < a ∨ a + v.length ≤ x) :
    (write s a v).mem x = s.mem x := by
  induction v generalizing s a with
  | nil => rfl
  | cons b rest ih =>
    show (write (writeByte s a b) (a + 1) rest).mem x = s.mem x
    rw [ih (writeByte s a b) (a + 1)]
    · apply writeByte_mem_ne
      simp only [List.length_cons] at h
      omega
    · simp only [List.length_cons] at h
      omega

theorem read_congr (n : Nat) (s1 s2 : EEPROM) (a : Nat)
    (h : ∀ x, a ≤ x → x < a + n → s1.mem x = s2.mem x) :
    read s1 a n = read s2 a n := by
  induction n generalizing a with
  | zero => rfl
  | succ n ih =>
    show readByte s1 a :: read s1 (a + 1) n = readByte s2 a :: read s2 (a + 1) n
    have hh : readByte s1 a = readByte s2 a := by
      unfold readByte
      rw [h a (Nat.le_refl a) (by omega)]
    rw [hh, ih (a + 1)]
    intro x hx1 hx2
    exact h x (by omega) (by omega)

theorem readByte_write_inside (v : List Nat) (s : EEPROM) (a : Nat) :
    ∀ i, i < v.length → readByte (write s a v) (a + i) = v.getD i 0 % 256 := by
  induction v generalizing s a with
  | nil => intro i hi; simp at hi
  | cons b rest ih =>
    intro i hi
    show readByte (write (writeByte s a b) (a + 1) rest) (a + i) = _
    match i with
    | 0 =>
      have hout : (write (writeByte s a b) (a + 1) rest).mem (a + 0) =
          (writeByte s a b).mem (a + 0) :=
        write_mem_outside rest (writeByte s a b) (a + 1) (a + 0) (by omega)
      unfold readByte
      rw [hout]
      have := readByte_writeByte s a b a
      unfold readByte at this
      simpa using this
    | i + 1 =>
      have := ih (writeByte s a b) (a + 1) i (by simpa using Nat.lt_of_succ_lt_succ hi)
      have harr : a + 1 + i = a + (i + 1) := by omega
      rw [harr] at this
      simpa using this

theorem read_write (v : List Nat) (s : EEPROM) (a : Nat) :
    read (write s a v) a v.length = v.map (fun b => b % 256) := by
  induction v generalizing s a with
  | nil => rfl
  | cons b rest ih =>
    show readByte (write (writeByte s a b) (a + 1) rest) a ::
        read (write (writeByte s a b) (a + 1) rest) (a + 1) rest.length =
        b % 256 :: rest.map (fun b => b % 256)
    have hhead : readByte (write (writeByte s a b) (a + 1) rest) a = b % 256 := by
      unfold readByte
      rw [write_mem_outside rest (writeByte s a b) (a + 1) a (by omega)]
      have := readByte_writeByte s a b a
      unfold readByte at this
      simpa using this
    rw [hhead, ih (writeByte s a b) (a + 1)]

theorem map_mod_eq_self (v : List Nat) (hb : ∀ b ∈ v, b < 256) :
    v.map (fun b => b % 256) = v := by
  induction v with
  | nil => rfl
  | cons b rest ih =>
    have h1 : b < 256 := hb b (List.mem_cons_self b rest)
    simp only [List.map_cons, Nat.mod_eq_of_lt h1]
    rw [ih (fun x hx => hb x (List.mem_cons_of_mem b hx))]

theorem bytesOfWord_length (w h : Nat) : (bytesOfWord w h).length = w := by
  induction w generalizing h with
  | zero => rfl
  | succ n ih =>
    show (h % 256 :: bytesOfWord n (h / 256)).length = n + 1
    simp [ih]

theorem bytesOfWord_lt (w h : Nat) : ∀ b ∈ bytesOfWord w h, b < 256 := by
  induction w generalizing h with
  | zero => intro b hb; simp [bytesOfWord] at hb
  | succ n ih =>
    intro b hb
    simp only [bytesOfWord, List.mem_cons] at hb
    cases hb with
    | inl h1 => rw [h1]; exact Nat.mod_lt _ (by omega)
    | inr h2 => exact ih (h / 256) b h2

theorem wordOfBytes_bytesOfWord (w h : Nat) (hh : h < 2 ^ (8 * w)) :
    wordOfBytes (bytesOfWord w h) = h := by
  induction w generalizing h with
  | zero =>
    have : h = 0 := by simpa using hh
    simp [this, bytesOfWord, wordOfBytes]
  | succ n ih =>
    show h % 256 % 256 + 256 * wordOfBytes (bytesOfWord n (h / 256)) = h
    have hdiv : h / 256 < 2 ^ (8 * n) := by
      have h256 : (256 : Nat) = 2 ^ 8 := by norm_num
      rw [Nat.div_lt_iff_lt_mul (by omega : 0 < 256)]
      calc h < 2 ^ (8 * (n + 1)) := hh
        _ = 2 ^ (8 * n) * 256 := by rw [h256, ← Nat.pow_add]; ring_nf
    rw [ih (h / 256) hdiv]
    omega

/-! Bit-level arithmetic facts used to analyse the hash update
expression `((value << 5) ^ (value >> 27)) ^ byte`. -/

theorem testBit_two_pow_mul_add_lo (a q k j : Nat) (hj : j < k) :
    Nat.testBit (2 ^ k * a + q) j = Nat.testBit q j := by
  rw [Nat.testBit_to_div_mod, Nat.testBit_to_div_mod]
  have h2 : 2 ^ k = 2 ^ j * (2 * 2 ^ (k - j - 1)) := by
    rw [← Nat.pow_succ']
    rw [← Nat.pow_add]
    congr 1
    omega
  have e1 : (2 ^ k * a + q) / 2 ^ j = 2 * 2 ^ (k - j - 1) * a + q / 2 ^ j := by
    rw [h2, Nat.mul_assoc]
    exact Nat.mul_add_div (Nat.two_pow_pos j) _ _
  rw [e1, Nat.mul_assoc, Nat.mul_add_mod]

theorem testBit_two_pow_mul_add_hi (a q k j : Nat) (hq : q < 2 ^ k) (hj : k ≤ j) :
    Nat.testBit (2 ^ k * a + q) j = Nat.testBit a (j - k) := by
  rw [Nat.testBit_to_div_mod, Nat.testBit_to_div_mod]
  have h2 : 2 ^ j = 2 ^ k * 2 ^ (j - k) := by
    rw [← Nat.pow_add]
    congr 1
    omega
  have e1 : (2 ^ k * a + q) / 2 ^ j = a / 2 ^ (j - k) := by
    rw [h2, ← Nat.div_div_eq_div_mul]
    congr 1
    rw [Nat.mul_add_div (Nat.two_pow_pos k), Nat.div_eq_of_lt hq, Nat.add_zero]
  rw [e1]

theorem two_pow_mul_xor_small (a q k : Nat) (hq : q < 2 ^ k) :
    (2 ^ k * a) ^^^ q = 2 ^ k * a + q := by
  apply Nat.eq_of_testBit_eq
  intro j
  rw [Nat.testBit_xor]
  by_cases hj : j < k
  · have h1 : Nat.testBit (2 ^ k * a) j = false := by
      have h0 := testBit_two_pow_mul_add_lo a 0 k j hj
      simpa using h0
    rw [testBit_two_pow_mul_add_lo a q k j hj, h1, Bool.false_xor]
  · push_neg at hj
    have h2 : Nat.testBit q j = false :=
      Nat.testBit_lt_two_pow (lt_of_lt_of_le hq (Nat.pow_le_pow_right (by omega) hj))
    have h3 : Nat.testBit (2 ^ k * a) j = Nat.testBit a (j - k) := by
      have h0 := testBit_two_pow_mul_add_hi a 0 k j (Nat.two_pow_pos k) hj
      simpa using h0
    rw [testBit_two_pow_mul_add_hi a q k j hq hj, h2, h3, Bool.xor_false]

theorem two_pow_mul_or_small (a q k : Nat) (hq : q < 2 ^ k) :
    (2 ^ k * a) ||| q = 2 ^ k * a + q := by
  apply Nat.eq_of_testBit_eq
  intro j
  rw [Nat.testBit_or]
  by_cases hj : j < k
  · have h1 : Nat.testBit (2 ^ k * a) j = false := by
      have h0 := testBit_two_pow_mul_add_lo a 0 k j hj
      simpa using h0
    rw [testBit_two_pow_mul_add_lo a q k j hj, h1, Bool.false_or]
  · push_neg at hj
    have h2 : Nat.testBit q j = false :=
      Nat.testBit_lt_two_pow (lt_of_lt_of_le hq (Nat.pow_le_pow_right (by omega) hj))
    have h3 : Nat.testBit (2 ^ k * a) j = Nat.testBit a (j - k) := by
      have h0 := testBit_two_pow_mul_add_hi a 0 k j (Nat.two_pow_pos k) hj
      simpa using h0
    rw [testBit_two_pow_mul_add_hi a q k j hq hj, h2, h3, Bool.or_false]

theorem shift_part_lo (v : Nat) :
    (v <<< 5) % 4294967296 = 2 ^ 5 * (v % 134217728) := by
  rw [Nat.shiftLeft_eq]
  have h1 : (4294967296 : Nat) = 134217728 * 2 ^ 5 := by norm_num
  rw [h1]
  have h2 : (2 : Nat) ^ 5 = 32 := by norm_num
  rw [h2, Nat.mul_mod_mul_right]
  ring

theorem shift_part_hi (v : Nat) : v >>> 27 = v / 134217728 := by
  rw [Nat.shiftRight_eq_div_pow]

theorem rot_expr_xor (v : Nat) (hv : v < 4294967296) :
    ((v <<< 5) % 4294967296) ^^^ (v >>> 27) = 32 * (v % 134217728) + v / 134217728 := by
  have hq : v / 134217728 < 2 ^ 5 := by
    have : (2 : Nat) ^ 5 = 32 := by norm_num
    omega
  rw [shift_part_lo, shift_part_hi, two_pow_mul_xor_small _ _ 5 hq]
  norm_num

theorem rot_expr_or (v : Nat) (hv : v < 4294967296) :
    ((v <<< 5) % 4294967296) ||| (v >>> 27) = 32 * (v % 134217728) + v / 134217728 := by
  have hq : v / 134217728 < 2 ^ 5 := by
    have : (2 : Nat) ^ 5 = 32 := by norm_num
    omega
  rw [shift_part_lo, shift_part_hi, two_pow_mul_or_small _ _ 5 hq]
  norm_num

theorem rotl5_arith (v : Nat) (hv : v < 4294967296) :
    rotl5 v = 32 * (v % 134217728) + v / 134217728 := by
  unfold rotl5
  exact rot_expr_or v hv

theorem hashStep_eq_arith (v b : Nat) (hv : v < 4294967296) (hb : b < 256) :
    hashStep v b = (32 * (v % 134217728) + v / 134217728) ^^^ b := by
  unfold hashStep
  rw [rot_expr_xor v hv]
  apply Nat.mod_eq_of_lt
  have h1 : 32 * (v % 134217728) + v / 134217728 < 2 ^ 32 := by
    have h2 : (2 : Nat) ^ 32 = 4294967296 := by norm_num
    omega
  have h3 : b < 2 ^ 32 := by
    have h2 : (2 : Nat) ^ 32 = 4294967296 := by norm_num
    omega
  have h4 := Nat.xor_lt_two_pow h1 h3
  have h2 : (2 : Nat) ^ 32 = 4294967296 := by norm_num
  omega

theorem hashStep_lt (v b : Nat) : hashStep v b < 4294967296 :=
  Nat.mod_lt _ (by norm_num)

theorem hashStep_inj_value {v1 v2 b : Nat} (h1 : v1 < 4294967296)
    (h2 : v2 < 4294967296) (hb : b < 256)
    (he : hashStep v1 b = hashStep v2 b) : v1 = v2 := by
  rw [hashStep_eq_arith v1 b h1 hb, hashStep_eq_arith v2 b h2 hb] at he
  have hx : 32 * (v1 % 134217728) + v1 / 134217728 =
      32 * (v2 % 134217728) + v2 / 134217728 := by
    have h3 := congrArg (fun z => z ^^^ b) he
    simpa [Nat.xor_cancel_right] using h3
  omega

theorem hashStep_inj_byte {v b1 b2 : Nat} (hv : v < 4294967296)
    (g1 : b1 < 256) (g2 : b2 < 256) (hne : b1 ≠ b2) :
    hashStep v b1 ≠ hashStep v b2 := by
  intro he
  rw [hashStep_eq_arith v b1 hv g1, hashStep_eq_arith v b2 hv g2] at he
  apply hne
  have h3 := congrArg
    (fun z => (32 * (v % 134217728) + v / 134217728) ^^^ z) he
  simpa [Nat.xor_cancel_left] using h3

theorem foldl_hashStep_lt (l : List Nat) (v : Nat) (hv : v < 4294967296) :
    List.foldl hashStep v l < 4294967296 := by
  induction l generalizing v with
  | nil => exact hv
  | cons b rest ih => exact ih (hashStep v b) (hashStep_lt v b)

theorem hash_lt (l : List Nat) : hash l < 4294967296 :=
  foldl_hashStep_lt l _ (Nat.mod_lt _ (by norm_num))

theorem foldl_hashStep_ne (l : List Nat) (hl : ∀ b ∈ l, b < 256) :
    ∀ v1 v2, v1 < 4294967296 → v2 < 4294967296 → v1 ≠ v2 →
    List.foldl hashStep v1 l ≠ List.foldl hashStep v2 l := by
  induction l with
  | nil =>
    intro v1 v2 _ _ hne
    simpa using hne
  | cons b rest ih =>
    intro v1 v2 h1 h2 hne
    show List.foldl hashStep (hashStep v1 b) rest ≠
      List.foldl hashStep (hashStep v2 b) rest
    apply ih (fun x hx => hl x (List.mem_cons_of_mem b hx))
    · exact hashStep_lt v1 b
    · exact hashStep_lt v2 b
    · intro he
      exact hne (hashStep_inj_value h1 h2 (hl b (List.mem_cons_self b rest)) he)

theorem foldl_hashStep_set_ne (l : List Nat) (hl : ∀ b ∈ l, b < 256) :
    ∀ k v c, k < l.length → c < 256 → c ≠ l.getD k 0 → v < 4294967296 →
    List.foldl hashStep v (l.set k c) ≠ List.foldl hashStep v l := by
  induction l with
  | nil =>
    intro k v c hk
    simp at hk
  | cons b rest ih =>
    intro k v c hk hc hne hv
    have hb : b < 256 := hl b (List.mem_cons_self b rest)
    match k with
    | 0 =>
      show List.foldl hashStep (hashStep v c) rest ≠
        List.foldl hashStep (hashStep v b) rest
      apply foldl_hashStep_ne rest (fun x hx => hl x (List.mem_cons_of_mem b hx))
        (hashStep v c) (hashStep v b) (hashStep_lt v c) (hashStep_lt v b)
      apply hashStep_inj_byte hv hc hb
      simpa using hne
    | k + 1 =>
      show List.foldl hashStep (hashStep v b) (rest.set k c) ≠
        List.foldl hashStep (hashStep v b) rest
      apply ih (fun x hx => hl x (List.mem_cons_of_mem b hx)) k (hashStep v b) c
      · simpa using Nat.lt_of_succ_lt_succ hk
      · exact hc
      · simpa using hne
      · exact hashStep_lt v b

theorem hash_set_ne (l : List Nat) (hl : ∀ b ∈ l, b < 256) (k c : Nat)
    (hk : k < l.length) (hc : c < 256) (hne : c ≠ l.getD k 0) :
    hash (l.set k c) ≠ hash l := by
  unfold hash
  rw [List.length_set]
  exact foldl_hashStep_set_ne l hl k _ c hk hc hne (Nat.mod_lt _ (by norm_num))

theorem foldl_hashStep_eq_rotl (l : List Nat) :
    ∀ v, v < 4294967296 → (∀ b ∈ l, b < 256) →
    List.foldl hashStep v l =
      List.foldl (fun acc b => (rotl5 acc) ^^^ b) v l := by
  induction l with
  | nil =>
    intro v _ _
    rfl
  | cons b rest ih =>
    intro v hv hl
    have hb : b < 256 := hl b (List.mem_cons_self b rest)
    show List.foldl hashStep (hashStep v b) rest =
      List.foldl (fun acc b => (rotl5 acc) ^^^ b) ((rotl5 v) ^^^ b) rest
    have he : hashStep v b = (rotl5 v) ^^^ b := by
      rw [hashStep_eq_arith v b hv hb, rotl5_arith v hv]
    rw [← he]
    exact ih (hashStep v b) (hashStep_lt v b)
      (fun x hx => hl x (List.mem_cons_of_mem b hx))

/-! Helper lemmas about the record layer. -/

theorem read_bytes_lt (n : Nat) (s : EEPROM) (a : Nat) :
    ∀ b ∈ read s a n, b < 256 := by
  induction n generalizing a with
  | zero =>
    intro b hb
    simp [read] at hb
  | succ n ih =>
    intro b hb
    simp only [read, List.mem_cons] at hb
    cases hb with
    | inl h1 =>
      rw [h1]
      exact Nat.mod_lt _ (by omega)
    | inr h2 => exact ih (a + 1) b h2

theorem read_first_field (s : EEPROM) (a w : Nat) (hs v : List Nat)
    (hlen : hs.length = w) :
    read (write (write s a hs) (a + w) v) a w = hs.map (fun b => b % 256) := by
  subst hlen
  have h1 := read_congr hs.length (write (write s a hs) (a + hs.length) v)
    (write s a hs) a
    (fun x hx1 hx2 => write_mem_outside v (write s a hs) (a + hs.length) x (Or.inl hx2))
  rw [h1]
  exact read_write hs s a

theorem read_writeByte_set (n : Nat) (s : EEPROM) (p c : Nat) :
    ∀ a, a ≤ p → p < a + n →
    read (writeByte s p c) a n = (read s a n).set (p - a) (c % 256) := by
  induction n with
  | zero =>
    intro a h1 h2
    omega
  | succ n ih =>
    intro a h1 h2
    show readByte (writeByte s p c) a :: read (writeByte s p c) (a + 1) n =
      (readByte s a :: read s (a + 1) n).set (p - a) (c % 256)
    by_cases hp : p = a
    · subst hp
      have hhead : readByte (writeByte s p c) p = c % 256 := by
        rw [readByte_writeByte, if_pos rfl]
      have htail : read (writeByte s p c) (p + 1) n = read s (p + 1) n :=
        read_congr n _ s (p + 1)
          (fun x hx1 hx2 => writeByte_mem_ne s p c x (by omega))
      have e0 : p - p = 0 := Nat.sub_self p
      rw [hhead, htail, e0, List.set_cons_zero]
    · have hhead : readByte (writeByte s p c) a = readByte s a := by
        rw [readByte_writeByte, if_neg (by omega)]
      have htail := ih (a + 1) (by omega) (by omega)
      have e : p - a = (p - (a + 1)) + 1 := by omega
      rw [hhead, htail, e, List.set_cons_succ]

theorem write_skip_all (v : List Nat) (s : EEPROM) (a : Nat)
    (h : ∀ i, i < v.length → readByte s (a + i) = v.getD i 0 % 256) :
    write s a v = s := by
  induction v generalizing s a with
  | nil => rfl
  | cons b rest ih =>
    show write (writeByte s a b) (a + 1) rest = s
    have h0 : readByte s a = b % 256 := by
      have hh := h 0 (by simp)
      simpa using hh
    have hwb : writeByte s a b = s := by
      unfold writeByte
      rw [if_pos h0]
    rw [hwb]
    apply ih s (a + 1)
    intro i hi
    have hh := h (i + 1) (by simpa using Nat.succ_lt_succ hi)
    have e : a + 1 + i = a + (i + 1) := by omega
    rw [e]
    simpa using hh

theorem hash_lt_two_pow_32 (l : List Nat) : hash l < 2 ^ (8 * 4) := by
  have h1 := hash_lt l
  have h2 : (2 : Nat) ^ (8 * 4) = 4294967296 := by norm_num
  omega

theorem roundtrip_fields (s : EEPROM) (a : Nat) (v : List Nat)
    (hb : ∀ b ∈ v, b < 256) :
    read (writeWithHash s a v) a 4 = bytesOfWord 4 (hash v) ∧
    read (writeWithHash s a v) (a + 4) v.length = v := by
  constructor
  · show read (write (write s a (bytesOfWord 4 (hash v))) (a + 4) v) a 4 = _
    rw [read_first_field s a 4 (bytesOfWord 4 (hash v)) v (bytesOfWord_length 4 _)]
    exact map_mod_eq_self _ (bytesOfWord_lt 4 _)
  · show read (write (write s a (bytesOfWord 4 (hash v))) (a + 4) v) (a + 4) v.length = v
    rw [read_write]
    exact map_mod_eq_self v hb

/-! Claim theorems. -/

/-- Claim C1, counterexample: the default hash does not implement the
update `(accumulator rotated left 5 bits) XOR (accumulator rotated right
5 bits, 32-bit rotation width) XOR byte` that the claim states: on the
single-byte input `[0]` the code yields `32` while the stated formula
yields `134217760`. -/
theorem hash_rotr_formula_counterexample : hash [0] ≠ hashSpec [0] := by decide

/-- Claim C1 as amended: for every byte sequence, the default hash
initialises a 32-bit accumulator to `size` and, for each byte in
ascending order, updates it to `(accumulator rotated left 5 bits) XOR
that byte` (with no rotated-right term), returning the final
accumulator; for `size == 0` the result is `0`. -/
theorem hash_rolling_mix_amended (data : List Nat) (hb : ∀ b ∈ data, b < 256) :
    hash data =
      List.foldl (fun acc b => (rotl5 acc) ^^^ b) (data.length % 4294967296) data ∧
    hash [] = 0 := by
  constructor
  · unfold hash
    exact foldl_hashStep_eq_rotl data _ (Nat.mod_lt _ (by norm_num)) hb
  · rfl

/-- Witness for the amended claim C1 at the concrete input `[0]`. -/
theorem hash_rolling_mix_amended_witness :
    (∀ b ∈ ([0] : List Nat), b < 256) ∧
    (hash [0] =
      List.foldl (fun acc b => (rotl5 acc) ^^^ b)
        (([0] : List Nat).length % 4294967296) [0] ∧
    hash [] = 0) :=
  ⟨by decide, hash_rolling_mix_amended [0] (by decide)⟩

/-- Claim C2: writing a record with its hash and then reading it back
with `readWithHash` at the same address returns `true` together with the
record, bit-identical. -/
theorem writeWithHash_readWithHash_roundtrip (s : EEPROM) (a : Nat)
    (v : List Nat) (hb : ∀ b ∈ v, b < 256)
    (hcap : a + 4 + v.length ≤ 1024) :
    readWithHash (writeWithHash s a v) a v.length = (true, v) := by
  obtain ⟨h1, h2⟩ := roundtrip_fields s a v hb
  show (decide (wordOfBytes (read (writeWithHash s a v) a 4) =
      hash (read (writeWithHash s a v) (a + 4) v.length)),
    read (writeWithHash s a v) (a + 4) v.length) = (true, v)
  rw [h1, h2, wordOfBytes_bytesOfWord 4 (hash v) (hash_lt_two_pow_32 v)]
  simp

/-- Witness for claim C2 at a concrete state, address and record. -/
theorem writeWithHash_readWithHash_roundtrip_witness :
    (∀ b ∈ ([3, 5, 250] : List Nat), b < 256) ∧
    10 + 4 + ([3, 5, 250] : List Nat).length ≤ 1024 ∧
    readWithHash (writeWithHash s0 10 [3, 5, 250]) 10 3 = (true, [3, 5, 250]) :=
  ⟨by decide, by decide,
    writeWithHash_readWithHash_roundtrip s0 10 [3, 5, 250] (by decide) (by decide)⟩

/-- Claim C3: writing a plain-data record and then reading the same
number of bytes back at the same address yields the record,
bit-identical. -/
theorem write_read_roundtrip (s : EEPROM) (a : Nat) (v : List Nat)
    (hb : ∀ b ∈ v, b < 256) (hcap : a + v.length ≤ 1024) :
    read (write s a v) a v.length = v := by
  rw [read_write, map_mod_eq_self v hb]

/-- Witness for claim C3 at a concrete state, address and record. -/
theorem write_read_roundtrip_witness :
    (∀ b ∈ ([12, 255] : List Nat), b < 256) ∧
    5 + ([12, 255] : List Nat).length ≤ 1024 ∧
    read (write s0 5 [12, 255]) 5 2 = [12, 255] :=
  ⟨by decide, by decide, write_read_roundtrip s0 5 [12, 255] (by decide) (by decide)⟩

/-- Claim C4: `writeWithHash` performs exactly a write of `hash(object)`
at the given address followed by a write of the object at
`address + sizeof(hash_type)`, so the stored layout is the four hash
bytes at offsets `a..a+3` immediately followed by the record bytes. -/
theorem writeWithHash_layout (s : EEPROM) (a : Nat) (v : List Nat)
    (hb : ∀ b ∈ v, b < 256) (hcap : a + 4 + v.length ≤ 1024) :
    writeWithHash s a v = write (write s a (bytesOfWord 4 (hash v))) (a + 4) v ∧
    read (writeWithHash s a v) a 4 = bytesOfWord 4 (hash v) ∧
    read (writeWithHash s a v) (a + 4) v.length = v :=
  ⟨rfl, (roundtrip_fields s a v hb).1, (roundtrip_fields s a v hb).2⟩

/-- Witness for claim C4 at a concrete state, address and record. -/
theorem writeWithHash_layout_witness :
    (∀ b ∈ ([7] : List Nat), b < 256) ∧
    0 + 4 + ([7] : List Nat).length ≤ 1024 ∧
    (writeWithHash s0 0 [7] = write (write s0 0 (bytesOfWord 4 (hash [7]))) (0 + 4) [7] ∧
    read (writeWithHash s0 0 [7]) 0 4 = bytesOfWord 4 (hash [7]) ∧
    read (writeWithHash s0 0 [7]) (0 + 4) 1 = [7]) :=
  ⟨by decide, by decide, writeWithHash_layout s0 0 [7] (by decide) (by decide)⟩

/-- Claim C5: after `writeWithHash`, independently overwriting one byte
of the record region with a different value (without updating the hash
field) makes a subsequent `readWithHash` at the same address return
`false`. -/
theorem readWithHash_detects_corruption (s : EEPROM) (a : Nat) (v : List Nat)
    (k c : Nat) (hb : ∀ b ∈ v, b < 256) (hk : k < v.length) (hc : c < 256)
    (hne : c ≠ v.getD k 0) (hcap : a + 4 + v.length ≤ 1024) :
    (readWithHash (writeByte (writeWithHash s a v) (a + 4 + k) c) a v.length).1 =
      false := by
  obtain ⟨h1, h2⟩ := roundtrip_fields s a v hb
  have hfr : read (writeByte (writeWithHash s a v) (a + 4 + k) c) a 4 =
      read (writeWithHash s a v) a 4 :=
    read_congr 4 _ _ a (fun x hx1 hx2 =>
      writeByte_mem_ne _ (a + 4 + k) c x (by omega))
  have hset := read_writeByte_set v.length (writeWithHash s a v) (a + 4 + k) c
    (a + 4) (by omega) (by omega)
  have ekk : a + 4 + k - (a + 4) = k := by omega
  rw [ekk, h2, Nat.mod_eq_of_lt hc] at hset
  show decide (wordOfBytes (read (writeByte (writeWithHash s a v) (a + 4 + k) c) a 4) =
      hash (read (writeByte (writeWithHash s a v) (a + 4 + k) c) (a + 4) v.length)) =
    false
  rw [hfr, h1, hset, wordOfBytes_bytesOfWord 4 (hash v) (hash_lt_two_pow_32 v)]
  apply decide_eq_false
  intro heq
  exact hash_set_ne v hb k c hk hc hne heq.symm

/-- Witness for claim C5 at a concrete state, record and corrupted byte. -/
theorem readWithHash_detects_corruption_witness :
    (∀ b ∈ ([1, 2] : List Nat), b < 256) ∧ 1 < ([1, 2] : List Nat).length ∧
    9 < 256 ∧ 9 ≠ ([1, 2] : List Nat).getD 1 0 ∧
    3 + 4 + ([1, 2] : List Nat).length ≤ 1024 ∧
    (readWithHash (writeByte (writeWithHash s0 3 [1, 2]) (3 + 4 + 1) 9) 3 2).1 =
      false :=
  ⟨by decide, by decide, by decide, by decide, by decide,
    readWithHash_detects_corruption s0 3 [1, 2] 1 9 (by decide) (by decide)
      (by decide) (by decide) (by decide)⟩

/-- Claim C6: `readWithHash` always fully populates the output record
with the bytes stored at `address + sizeof(hash_type)`, whatever the
boolean result, and its result is exactly whether the stored hash field
equals the hash recomputed from the freshly read record bytes. -/
theorem readWithHash_populates_always (s : EEPROM) (a n : Nat) :
    (readWithHash s a n).2 = read s (a + 4) n ∧
    ((readWithHash s a n).1 = true ↔
      wordOfBytes (read s a 4) = hash (read s (a + 4) n)) := by
  constructor
  · rfl
  · show decide (wordOfBytes (read s a 4) = hash (read s (a + 4) n)) = true ↔ _
    simp

/-- Claim C7: writing a byte equal to the stored byte performs no
physical write and leaves the state unchanged (hence a multi-byte write
of entirely unchanged bytes performs none either), while writing a
differing byte performs exactly one physical write and stores the
value. -/
theorem writeByte_write_skip (s : EEPROM) (a b : Nat) (v : List Nat)
    (hcap : a ≤ 1023) :
    (readByte s a = b % 256 → writeByte s a b = s) ∧
    (readByte s a ≠ b % 256 →
      (writeByte s a b).physWrites = s.physWrites + 1 ∧
      readByte (writeByte s a b) a = b % 256) ∧
    ((∀ i, i < v.length → readByte s (a + i) = v.getD i 0 % 256) →
      write s a v = s) := by
  refine ⟨?_, ?_, ?_⟩
  · intro h
    unfold writeByte
    rw [if_pos h]
  · intro h
    constructor
    · unfold writeByte
      rw [if_neg h]
    · rw [readByte_writeByte, if_pos rfl]
  · exact write_skip_all v s a

/-- Witness for claim C7 at a concrete state, address and bytes. -/
theorem writeByte_write_skip_witness :
    5 ≤ 1023 ∧
    ((readByte s0 5 = 7 % 256 → writeByte s0 5 7 = s0) ∧
    (readByte s0 5 ≠ 7 % 256 →
      (writeByte s0 5 7).physWrites = s0.physWrites + 1 ∧
      readByte (writeByte s0 5 7) 5 = 7 % 256) ∧
    ((∀ i, i < ([0] : List Nat).length →
        readByte s0 (5 + i) = ([0] : List Nat).getD i 0 % 256) →
      write s0 5 [0] = s0)) :=
  ⟨by decide, writeByte_write_skip s0 5 7 [0] (by decide)⟩

/-- Claim C8: with a caller-supplied hash function whose return type
occupies `w` bytes, the custom-hash `writeWithHash` stores the custom
hash in a `w`-byte field at the address with the record immediately
after it, and the matching custom-hash `readWithHash` reads both back,
recomputes the custom hash and returns `true` with the record
bit-identical. -/
theorem custom_hash_roundtrip (s : EEPROM) (a : Nat) (v : List Nat) (w : Nat)
    (H : List Nat → Nat) (hb : ∀ b ∈ v, b < 256) (hH : H v < 2 ^ (8 * w))
    (hcap : a + w + v.length ≤ 1024) :
    read (writeWithHashCustom s a v w H) a w = bytesOfWord w (H v) ∧
    read (writeWithHashCustom s a v w H) (a + w) v.length = v ∧
    readWithHashCustom (writeWithHashCustom s a v w H) a v.length w H =
      (true, v) := by
  have h1 : read (writeWithHashCustom s a v w H) a w = bytesOfWord w (H v) := by
    show read (write (write s a (bytesOfWord w (H v))) (a + w) v) a w = _
    rw [read_first_field s a w (bytesOfWord w (H v)) v (bytesOfWord_length w _)]
    exact map_mod_eq_self _ (bytesOfWord_lt w _)
  have h2 : read (writeWithHashCustom s a v w H) (a + w) v.length = v := by
    show read (write (write s a (bytesOfWord w (H v))) (a + w) v) (a + w) v.length = v
    rw [read_write]
    exact map_mod_eq_self v hb
  refine ⟨h1, h2, ?_⟩
  show (decide (wordOfBytes (read (writeWithHashCustom s a v w H) a w) =
      H (read (writeWithHashCustom s a v w H) (a + w) v.length)),
    read (writeWithHashCustom s a v w H) (a + w) v.length) = (true, v)
  rw [h1, h2, wordOfBytes_bytesOfWord w (H v) hH]
  simp

/-- Witness for claim C8 with a one-byte custom hash (the record
length) at a concrete state and record. -/
theorem custom_hash_roundtrip_witness :
    (∀ b ∈ ([4, 6] : List Nat), b < 256) ∧
    List.length [4, 6] < 2 ^ (8 * 1) ∧
    2 + 1 + ([4, 6] : List Nat).length ≤ 1024 ∧
    (read (writeWithHashCustom s0 2 [4, 6] 1 List.length) 2 1 =
      bytesOfWord 1 (List.length [4, 6]) ∧
    read (writeWithHashCustom s0 2 [4, 6] 1 List.length) (2 + 1) 2 = [4, 6] ∧
    readWithHashCustom (writeWithHashCustom s0 2 [4, 6] 1 List.length) 2 2 1
      List.length = (true, [4, 6])) :=
  ⟨by decide, by decide, by decide,
    custom_hash_roundtrip s0 2 [4, 6] 1 List.length (by decide) (by decide)
      (by decide)⟩

/-- Claim C9: `write` leaves every storage cell outside
`[a, a + size)` unchanged and `writeWithHash` leaves every cell outside
`[a, a + 4 + size)` unchanged (the read operations perform no writes at
all in the model, mirroring that the source reads only via
`eeprom_read_byte`). -/
theorem write_frame (s : EEPROM) (a : Nat) (v : List Nat) :
    (∀ x, x < a ∨ a + v.length ≤ x → (write s a v).mem x = s.mem x) ∧
    (∀ x, x < a ∨ a + 4 + v.length ≤ x → (writeWithHash s a v).mem x = s.mem x) := by
  constructor
  · intro x hx
    exact write_mem_outside v s a x hx
  · intro x hx
    show (write (write s a (bytesOfWord 4 (hash v))) (a + 4) v).mem x = s.mem x
    rw [write_mem_outside v _ (a + 4) x (by omega)]
    rw [write_mem_outside (bytesOfWord 4 (hash v)) s a x
      (by rw [bytesOfWord_length]; omega)]

/-- Witness for claim C9 at a concrete cell below the written range. -/
theorem write_frame_witness :
    (write s0 5 [1, 2]).mem 2 = s0.mem 2 ∧
    (writeWithHash s0 5 [1, 2]).mem 2 = s0.mem 2 :=
  ⟨(write_frame s0 5 [1, 2]).1 2 (Or.inl (by decide)),
    (write_frame s0 5 [1, 2]).2 2 (Or.inl (by decide))⟩

/-- Claim C10: for every 32-bit accumulator value, the code's update
expression `(v << 5) ^ (v >> 27)` (32-bit arithmetic) equals the left
rotation `(v << 5) | (v >> 27)` because the two operands have no
overlapping set bits, and hence the per-byte hash step equals
`rotateLeft(v, 5) XOR byte`. -/
theorem shift_xor_eq_rotl (v b : Nat) (hv : v < 4294967296) (hb : b < 256) :
    ((v <<< 5) % 4294967296) ^^^ (v >>> 27) = rotl5 v ∧
    hashStep v b = (rotl5 v) ^^^ b := by
  constructor
  · rw [rot_expr_xor v hv, rotl5_arith v hv]
  · rw [hashStep_eq_arith v b hv hb, rotl5_arith v hv]

/-- Witness for claim C10 at a concrete accumulator and byte. -/
theorem shift_xor_eq_rotl_witness :
    1 < 4294967296 ∧ 7 < 256 ∧
    (((1 <<< 5) % 4294967296) ^^^ (1 >>> 27) = rotl5 1 ∧
    hashStep 1 7 = (rotl5 1) ^^^ 7) :=
  ⟨by decide, by decide, shift_xor_eq_rotl 1 7 (by decide) (by decide)⟩

end Arduboy2EEPROM
